import Mathlib

/-!
Shallow embedding of the MetaNewsX heuristic text-analysis pipeline
(`src/metanewsx/cli.py`).  Python strings are modelled as `List Char`;
each pure pipeline function is translated into a Lean function of the
same name.  Regular expressions are translated into explicit character
scans whose semantics are documented at the definition site.

Modelling boundaries: Python's `\s`, `\d`, `\w`, `str.lower()` are
Unicode-aware; here they are modelled over their ASCII behaviour
(`isPySpace`, `Char.isDigit`, `isWordChar`, `Char.toLower`), which is
exact for all ASCII input.
-/

/-- Python strings are finite character sequences. -/
abbrev Str := List Char

/-- Convert a Lean string literal to the character-list model. -/
def str (s : String) : Str := s.data

/-- Characters matched by Python's `\s` (ASCII fragment):
space, tab, newline, carriage return, vertical tab, form feed. -/
def isPySpace (c : Char) : Bool :=
  c == ' ' || c == '\t' || c == '\n' || c == '\r' || c == '\x0b' || c == '\x0c'

/-- Characters matched by Python's `\w` (ASCII fragment). -/
def isWordChar (c : Char) : Bool :=
  c.isAlpha || c.isDigit || c == '_'

/-- Python `s.lower()` (ASCII fragment), applied characterwise. -/
def lowerStr (s : Str) : Str := s.map Char.toLower

/-- Bool-valued test that `needle` is a leading segment of `hay`. -/
def isPrefixB : Str → Str → Bool
  | [], _ => true
  | _ :: _, [] => false
  | a :: as, b :: bs => a == b && isPrefixB as bs

/-- Python's `needle in hay` substring containment test. -/
def isSubstrB (needle : Str) : Str → Bool
  | [] => needle.isEmpty
  | c :: rest => isPrefixB needle (c :: rest) || isSubstrB needle rest

/-- Python `sep.join(parts)`. -/
def joinWithSep (sep : Str) : List Str → Str
  | [] => []
  | [x] => x
  | x :: xs => x ++ sep ++ joinWithSep sep xs

/-- The length of Python `s.split()` (split on whitespace runs,
dropping empty pieces): counts maximal non-whitespace runs. The Bool
argument records whether the previous character was inside a word. -/
def pyWordCountAux : Bool → Str → Nat
  | _, [] => 0
  | inWord, c :: rest =>
      if isPySpace c then pyWordCountAux false rest
      else (if inWord then 0 else 1) + pyWordCountAux true rest

/-- `len(s.split())` for a Python string `s`. -/
def pyWordCount (s : Str) : Nat := pyWordCountAux false s

/-- Scan implementing Python `re.search(r"\b\d+%?\b", s) is not None`.
A match exists iff some maximal digit run has a word boundary on both
sides.  The regex's `%?` alternative never enables an extra match: when
the run is followed by `%`, the empty alternative already closes the
match because `%` is a non-word character; hence only the boundary
after the digit run matters.  The `Option Char` argument is the
previous character (`none` at the start of the string). -/
def numTokenScan : Option Char → Str → Bool
  | _, [] => false
  | prev, c :: rest =>
      (c.isDigit
        && (match prev with
            | none => true
            | some p => !isWordChar p)
        && (match rest.dropWhile Char.isDigit with
            | [] => true
            | d :: _ => !isWordChar d))
      || numTokenScan (some c) rest

/-- `re.search(r"\b\d+%?\b", sentence)` as a Bool. -/
def hasNumericToken (s : Str) : Bool := numTokenScan none s

/-- Python `str.strip()` (ASCII whitespace fragment): drop leading and
trailing whitespace. -/
def stripChars (l : Str) : Str :=
  ((l.dropWhile isPySpace).reverse.dropWhile isPySpace).reverse

/-- `re.sub(r"\s+", " ", l)`: replace every maximal whitespace run by a
single space. -/
def collapseWs : Str → Str
  | [] => []
  | [c] => if isPySpace c then [' '] else [c]
  | c1 :: c2 :: rest =>
      if isPySpace c1 && isPySpace c2 then collapseWs (c2 :: rest)
      else (if isPySpace c1 then ' ' else c1) :: collapseWs (c2 :: rest)

/-- No two adjacent space characters (used to state the shape of
whitespace-collapsed strings). -/
def ndsp : Str → Bool
  | [] => true
  | [_] => true
  | c1 :: c2 :: rest => !(c1 == ' ' && c2 == ' ') && ndsp (c2 :: rest)

/-- Sentence-terminal punctuation of the splitter's lookbehind `[.!?]`. -/
def isTermChar (c : Char) : Bool := c == '.' || c == '!' || c == '?'

/-- Whether the last character accumulated so far (the head of the
reversed accumulator) is sentence-terminal punctuation. -/
def prevIsTerm : Str → Bool
  | [] => false
  | p :: _ => isTermChar p

/-- `re.split(r"(?<=[.!?])\s+", cleaned)` specialised to inputs whose
whitespace was already collapsed to single spaces (as `_split_sentences`
guarantees): split at each space that is preceded by `.`, `!` or `?`,
consuming the space.  `cur` is the reversed accumulator of the current
piece. -/
def sentSplitAux (cur : Str) : Str → List Str
  | [] => [cur.reverse]
  | c :: rest =>
      if c == ' ' && prevIsTerm cur then
        cur.reverse :: sentSplitAux [] rest
      else
        sentSplitAux (c :: cur) rest

/-- `_split_sentences` from `cli.py`: normalize whitespace, split on
sentence boundaries, strip each piece and drop empty pieces. -/
def _split_sentences (text : Str) : List Str :=
  let cleaned := collapseWs (stripChars text)
  if cleaned = [] then []
  else ((sentSplitAux [] cleaned).map stripChars).filter (fun t => !t.isEmpty)

/-- The assertion tokens of `_select_claims`, space-delimited as in the
source. -/
def assertionTokens : List Str :=
  [str " will ", str " has ", str " have ", str " is ", str " are ",
   str " was ", str " were "]

/-- `any(token in lower for token in (...))` from `_select_claims`. -/
def hasAssertionToken (s : Str) : Bool :=
  assertionTokens.any (fun t => isSubstrB t (lowerStr s))

/-- The per-sentence test of `_select_claims`: assertion token in the
lowercased sentence, or a numeric token in the original sentence. -/
def qualifiesAsClaim (s : Str) : Bool :=
  hasAssertionToken s || hasNumericToken s

/-- The accumulation loop of `_select_claims`: append qualifying
sentences, and after each sentence stop once 5 claims are collected. -/
def selectClaimsAux (claims : List Str) : List Str → List Str
  | [] => claims
  | s :: rest =>
      let claims2 := if qualifiesAsClaim s then claims ++ [s] else claims
      if 5 ≤ claims2.length then claims2 else selectClaimsAux claims2 rest

/-- `_select_claims` from `cli.py`. -/
def _select_claims (sentences : List Str) : List Str :=
  selectClaimsAux [] sentences

/-- Python `s.endswith((".", "!", "?"))`. -/
def endsWithTermPunct (s : Str) : Bool :=
  match s.getLast? with
  | some c => isTermChar c
  | none => false

/-- `_build_headline` from `cli.py`. -/
def _build_headline (sentences : List Str) : Str :=
  match sentences with
  | [] => str "No topic detected from the provided text."
  | first :: _ =>
      if endsWithTermPunct first then first else first ++ str "."

/-- `_confidence_note` from `cli.py`. -/
def _confidence_note (sentences claims : List Str) : Str :=
  if sentences = [] then
    str "No source text was provided, so reliability cannot be assessed."
  else
    let detail_score := (sentences.filter (fun s => hasNumericToken s)).length
    let clarity := if sentences.length ≤ 6 then str "clear" else str "mixed"
    if 2 ≤ detail_score ∧ 3 ≤ claims.length then
      str "The text is relatively clear and includes multiple concrete details, so the claims appear moderately reliable pending verification."
    else if detail_score = 0 then
      str "The text offers broad statements with few specifics, so reliability is uncertain and would benefit from corroborating sources."
    else
      str "The text has " ++ clarity ++ str " structure with some factual indicators, suggesting partial reliability that should be checked against primary sources."

/-- The hedging test of `_watch_items`:
`"could" in sentence.lower() or "may" in sentence.lower()`. -/
def hasHedgeWord (s : Str) : Bool :=
  isSubstrB (str "could") (lowerStr s) || isSubstrB (str "may") (lowerStr s)

/-- `_watch_items` from `cli.py`. -/
def _watch_items (sentences : List Str) : List Str :=
  if sentences = [] then
    [str "Clarify the main topic and provide supporting facts."]
  else
    let watchlist : List Str :=
      (if sentences.any hasHedgeWord then
        [str "Verify conditional statements against confirmed reports."]
       else [])
      ++ (if sentences.any (fun s => hasNumericToken s) then
        [str "Confirm the quantitative figures with original data."]
       else [])
      ++ [str "Identify the primary sources behind the reported claims."]
    watchlist.take 3

/-- The vague-qualifier tokens of `_uncertainty_flags`. -/
def vagueTokens : List Str :=
  [str "some", str "many", str "various", str "likely", str "reportedly"]

/-- `_uncertainty_flags` from `cli.py`. -/
def _uncertainty_flags (sentences : List Str) : List Str :=
  if sentences = [] then
    [str "No input text provided to evaluate."]
  else
    let flags : List Str :=
      (if sentences.any (fun s => pyWordCount s < 6) then
        [str "Some sentences are very short, which may omit important context."]
       else [])
      ++ (if vagueTokens.any
            (fun t => isSubstrB t (lowerStr (joinWithSep (str " ") sentences))) then
        [str "Vague qualifiers suggest potential uncertainty or bias."]
       else [])
      ++ (if !(sentences.any (fun s => hasNumericToken s)) then
        [str "No numeric data was provided to anchor the claims."]
       else [])
    flags.take 3

/-- The `analyze` command from `cli.py`: the full report string written
to standard output (before `click.echo`'s trailing newline). -/
def analyze (text : Str) : Str :=
  let sentences := _split_sentences text
  let claims := _select_claims sentences
  let headline := _build_headline sentences
  let confidence := _confidence_note sentences claims
  let watch_items := _watch_items sentences
  let flags := _uncertainty_flags sentences
  let lines : List Str :=
    [str "Decision-Grade Brief", str "====================", str "",
     str "HEADLINE", headline, str "", str "CLAIMS"]
    ++ (if claims ≠ [] then claims.map (fun c => str "- " ++ c)
        else [str "- No clear factual claims detected from the text."])
    ++ [str "", str "CONFIDENCE", confidence, str "", str "WHAT TO WATCH"]
    ++ watch_items.map (fun i => str "- " ++ i)
    ++ [str "", str "UNCERTAINTY FLAGS"]
    ++ flags.map (fun f => str "- " ++ f)
  joinWithSep (str "\n") lines

/-- Modelled from the spec: the "whitespace-normalized form" named in
the testable properties — "runs of whitespace collapsed to single
spaces, then trimmed" — used as the comparison point for the
sentence-splitting round-trip property. -/
def specNormalize (s : Str) : Str := stripChars (collapseWs s)

/-! ### Generic list lemmas -/

theorem mapIdOn {α : Type} (f : α → α) (l : List α) (h : ∀ a ∈ l, f a = a) :
    l.map f = l := by
  induction l with
  | nil => rfl
  | cons a t ih =>
      simp only [List.map_cons]
      rw [h a (List.mem_cons_self a t),
        ih (fun b hb => h b (List.mem_cons_of_mem a hb))]

theorem filterNeNil {α : Type} (l : List (List α)) (h : ∀ t ∈ l, t ≠ []) :
    l.filter (fun t => !t.isEmpty) = l := by
  induction l with
  | nil => rfl
  | cons a t ih =>
      have ha : (!a.isEmpty) = true := by
        have h1 := h a (List.mem_cons_self a t)
        cases a with
        | nil => exact absurd rfl h1
        | cons x xs => rfl
      rw [List.filter_cons, if_pos ha,
        ih (fun b hb => h b (List.mem_cons_of_mem a hb))]

theorem joinWithSep_cons (sep x : Str) (xs : List Str) (h : xs ≠ []) :
    joinWithSep sep (x :: xs) = x ++ sep ++ joinWithSep sep xs := by
  cases xs with
  | nil => exact absurd rfl h
  | cons y ys => rfl

theorem headOfDropWhile (p : Char → Bool) (l : Str) (c : Char)
    (h : (l.dropWhile p).head? = some c) : p c = false := by
  induction l with
  | nil => simp [List.dropWhile_nil] at h
  | cons a t ih =>
      rw [List.dropWhile_cons] at h
      by_cases hp : p a = true
      · exact ih (by rwa [if_pos hp] at h)
      · rw [if_neg hp] at h
        simp only [List.head?_cons, Option.some.injEq] at h
        subst h
        simp at hp
        exact hp

theorem memOfMemDropWhile (p : Char → Bool) (l : Str) (c : Char)
    (h : c ∈ l.dropWhile p) : c ∈ l := by
  induction l with
  | nil =>
      rw [List.dropWhile_nil] at h
      exact h
  | cons a t ih =>
      rw [List.dropWhile_cons] at h
      by_cases hp : p a = true
      · rw [if_pos hp] at h
        exact List.mem_cons_of_mem a (ih h)
      · rwa [if_neg hp] at h

theorem getLastOfDropWhile (p : Char → Bool) (l : Str)
    (h : l.dropWhile p ≠ []) : (l.dropWhile p).getLast? = l.getLast? := by
  induction l with
  | nil => simp [List.dropWhile_nil] at h
  | cons a t ih =>
      rw [List.dropWhile_cons] at h ⊢
      by_cases hp : p a = true
      · rw [if_pos hp] at h ⊢
        rw [ih h]
        cases t with
        | nil => simp [List.dropWhile_nil] at h
        | cons b u => rw [List.getLast?_cons_cons]
      · rw [if_neg hp]

/-! ### Facts about `collapseWs` -/

theorem beqSpaceFalse {b : Char} (hb : isPySpace b = false) : (b == ' ') = false := by
  by_cases h : b = ' '
  · subst h
    simp [isPySpace] at hb
  · exact beq_eq_false_iff_ne.mpr h

theorem collapseWs_cons_of_not_space (c : Char) (l : Str)
    (hc : isPySpace c = false) : collapseWs (c :: l) = c :: collapseWs l := by
  cases l with
  | nil => simp [collapseWs, hc]
  | cons d t => simp [collapseWs, hc]

theorem collapseWs_ne_nil (l : Str) (h : l ≠ []) : collapseWs l ≠ [] := by
  induction l with
  | nil => exact absurd rfl h
  | cons a t ih =>
      cases t with
      | nil =>
          by_cases hs : isPySpace a = true <;> simp [collapseWs, hs]
      | cons b u =>
          by_cases ha : isPySpace a = true <;> by_cases hb : isPySpace b = true <;>
            simp only [collapseWs, ha, hb, Bool.and_self, Bool.and_true,
              Bool.and_false, Bool.true_and, Bool.false_and, if_true, if_false,
              ite_true, ite_false]
          · exact ih (by simp)
          all_goals simp

theorem wsMemCollapseWs (l : Str) (c : Char) (hc : c ∈ collapseWs l)
    (hws : isPySpace c = true) : c = ' ' := by
  induction l with
  | nil => simp [collapseWs] at hc
  | cons a t ih =>
      cases t with
      | nil =>
          by_cases hs : isPySpace a = true
          · simp [collapseWs, hs] at hc
            exact hc
          · simp [collapseWs, hs] at hc
            subst hc
            exact absurd hws (by simp [hs])
      | cons b u =>
          by_cases ha : isPySpace a = true <;> by_cases hb : isPySpace b = true
          · exact ih (by simpa [collapseWs, ha, hb] using hc)
          · have hc' : c = ' ' ∨ c ∈ collapseWs (b :: u) := by
              simpa [collapseWs, ha, hb] using hc
            rcases hc' with h1 | h1
            · exact h1
            · exact ih h1
          all_goals
            have hc' : c = a ∨ c ∈ collapseWs (b :: u) := by
              simpa [collapseWs, ha, hb] using hc
            rcases hc' with h1 | h1
            · subst h1
              exact absurd hws (by simp [ha])
            · exact ih h1

theorem memCollapseWs (l : Str) (c : Char) (hc : c ∈ collapseWs l) :
    c ∈ l ∨ c = ' ' := by
  induction l with
  | nil => simp [collapseWs] at hc
  | cons a t ih =>
      cases t with
      | nil =>
          by_cases hs : isPySpace a = true
          · simp [collapseWs, hs] at hc
            right
            exact hc
          · simp [collapseWs, hs] at hc
            left
            simp [hc]
      | cons b u =>
          by_cases ha : isPySpace a = true <;> by_cases hb : isPySpace b = true
          · rcases ih (by simpa [collapseWs, ha, hb] using hc) with h1 | h1
            · exact Or.inl (List.mem_cons_of_mem a h1)
            · exact Or.inr h1
          · have hc' : c = ' ' ∨ c ∈ collapseWs (b :: u) := by
              simpa [collapseWs, ha, hb] using hc
            rcases hc' with h1 | h1
            · exact Or.inr h1
            · rcases ih h1 with h2 | h2
              · exact Or.inl (List.mem_cons_of_mem a h2)
              · exact Or.inr h2
          all_goals
            have hc' : c = a ∨ c ∈ collapseWs (b :: u) := by
              simpa [collapseWs, ha, hb] using hc
            rcases hc' with h1 | h1
            · subst h1
              exact Or.inl (List.mem_cons_self c _)
            · rcases ih h1 with h2 | h2
              · exact Or.inl (List.mem_cons_of_mem a h2)
              · exact Or.inr h2

/-! ### The no-double-space invariant of collapsed strings -/

theorem ndsp_tail {x : Char} {m : Str} (h : ndsp (x :: m) = true) :
    ndsp m = true := by
  cases m with
  | nil => rfl
  | cons b t =>
      simp only [ndsp, Bool.and_eq_true] at h
      exact h.2

theorem ndsp_suffix (a b : Str) (h : ndsp (a ++ b) = true) : ndsp b = true := by
  induction a with
  | nil => exact h
  | cons x xs ih => exact ih (ndsp_tail h)

theorem ndsp_space_head {rest : Str} (h : ndsp (' ' :: rest) = true) :
    rest.head? ≠ some ' ' := by
  cases rest with
  | nil => simp
  | cons b t =>
      intro hb
      simp only [List.head?_cons, Option.some.injEq] at hb
      subst hb
      simp [ndsp] at h

theorem ndsp_cons_of_head_ne {x : Char} {m : Str} (hm : ndsp m = true)
    (h : ∀ d, m.head? = some d → (d == ' ') = false) : ndsp (x :: m) = true := by
  cases m with
  | nil => rfl
  | cons b t =>
      have hb := h b rfl
      simp [ndsp, hb, hm]

theorem ndsp_cons_of_ne {a : Char} {m : Str} (ha : (a == ' ') = false)
    (hm : ndsp m = true) : ndsp (a :: m) = true := by
  cases m with
  | nil => rfl
  | cons b t => simp [ndsp, ha, hm]

theorem ndsp_collapseWs (l : Str) : ndsp (collapseWs l) = true := by
  induction l with
  | nil => rfl
  | cons a t ih =>
      cases t with
      | nil => by_cases hs : isPySpace a = true <;> simp [collapseWs, hs, ndsp]
      | cons b u =>
          by_cases ha : isPySpace a = true <;> by_cases hb : isPySpace b = true
          · have he : collapseWs (a :: b :: u) = collapseWs (b :: u) := by
              simp [collapseWs, ha, hb]
            rw [he]
            exact ih
          · have he : collapseWs (a :: b :: u) = ' ' :: collapseWs (b :: u) := by
              simp [collapseWs, ha, hb]
            rw [he]
            refine ndsp_cons_of_head_ne ih (fun d hd => ?_)
            rw [collapseWs_cons_of_not_space b u (by simpa using hb)] at hd
            simp only [List.head?_cons, Option.some.injEq] at hd
            subst hd
            exact beqSpaceFalse (by simpa using hb)
          all_goals
            have he : collapseWs (a :: b :: u) = a :: collapseWs (b :: u) := by
              simp [collapseWs, ha, hb]
            rw [he]
            exact ndsp_cons_of_ne (beqSpaceFalse (by simpa using ha)) ih

/-! ### `collapseWs` commutes with reversal and leading-whitespace removal -/

theorem collapseWs_snoc_ws {m : Str} {d c : Char} (hm : m.getLast? = some d)
    (hd : isPySpace d = true) (hc : isPySpace c = true) :
    collapseWs (m ++ [c]) = collapseWs m := by
  induction m with
  | nil => simp at hm
  | cons a t ih =>
      cases t with
      | nil =>
          simp only [List.getLast?_singleton, Option.some.injEq] at hm
          subst hm
          simp [collapseWs, hd, hc]
      | cons b u =>
          rw [List.getLast?_cons_cons] at hm
          have harr : (a :: b :: u) ++ [c] = a :: b :: (u ++ [c]) := rfl
          rw [harr]
          by_cases ha : isPySpace a = true <;> by_cases hb : isPySpace b = true
          · have h1 : collapseWs (a :: b :: (u ++ [c])) =
                collapseWs (b :: (u ++ [c])) := by simp [collapseWs, ha, hb]
            have h2 : collapseWs (a :: b :: u) = collapseWs (b :: u) := by
              simp [collapseWs, ha, hb]
            rw [h1, h2]
            exact ih hm
          all_goals
            have h1 : collapseWs (a :: b :: (u ++ [c])) =
                (if isPySpace a then ' ' else a) :: collapseWs (b :: (u ++ [c])) := by
              simp [collapseWs, ha, hb]
            have h2 : collapseWs (a :: b :: u) =
                (if isPySpace a then ' ' else a) :: collapseWs (b :: u) := by
              simp [collapseWs, ha, hb]
            rw [h1, h2]
            exact congrArg (List.cons _) (ih hm)

theorem collapseWs_snoc_gen {m : Str} {d c : Char} (hm : m.getLast? = some d)
    (h : (isPySpace d && isPySpace c) = false) :
    collapseWs (m ++ [c]) =
      collapseWs m ++ [if isPySpace c then ' ' else c] := by
  induction m with
  | nil => simp at hm
  | cons a t ih =>
      cases t with
      | nil =>
          simp only [List.getLast?_singleton, Option.some.injEq] at hm
          subst hm
          have hcol : collapseWs [a, c] =
              (if isPySpace a then ' ' else a) :: collapseWs [c] := by
            simp [collapseWs, h]
          have hone : collapseWs [a] = [if isPySpace a then ' ' else a] := by
            by_cases hax : isPySpace a = true <;> simp [collapseWs, hax]
          have hone' : collapseWs [c] = [if isPySpace c then ' ' else c] := by
            by_cases hcx : isPySpace c = true <;> simp [collapseWs, hcx]
          rw [show ([a] ++ [c] : Str) = [a, c] from rfl, hcol, hone, hone']
          rfl
      | cons b u =>
          rw [List.getLast?_cons_cons] at hm
          have harr : (a :: b :: u) ++ [c] = a :: b :: (u ++ [c]) := rfl
          rw [harr]
          by_cases ha : isPySpace a = true <;> by_cases hb : isPySpace b = true
          · have h1 : collapseWs (a :: b :: (u ++ [c])) =
                collapseWs (b :: (u ++ [c])) := by simp [collapseWs, ha, hb]
            have h2 : collapseWs (a :: b :: u) = collapseWs (b :: u) := by
              simp [collapseWs, ha, hb]
            rw [h1, h2]
            exact ih hm
          all_goals
            have h1 : collapseWs (a :: b :: (u ++ [c])) =
                (if isPySpace a then ' ' else a) :: collapseWs (b :: (u ++ [c])) := by
              simp [collapseWs, ha, hb]
            have h2 : collapseWs (a :: b :: u) =
                (if isPySpace a then ' ' else a) :: collapseWs (b :: u) := by
              simp [collapseWs, ha, hb]
            rw [h1, h2]
            exact congrArg (List.cons _) (ih hm)

theorem collapseWs_reverse (l : Str) :
    collapseWs l.reverse = (collapseWs l).reverse := by
  induction l with
  | nil => rfl
  | cons c t ih =>
      cases t with
      | nil => by_cases hc : isPySpace c = true <;> simp [collapseWs, hc]
      | cons d u =>
          rw [List.reverse_cons]
          have hlast : (d :: u).reverse.getLast? = some d := by
            rw [List.getLast?_reverse, List.head?_cons]
          by_cases hc : isPySpace c = true <;> by_cases hd : isPySpace d = true
          · rw [collapseWs_snoc_ws hlast hd hc, ih]
            have h2 : collapseWs (c :: d :: u) = collapseWs (d :: u) := by
              simp [collapseWs, hc, hd]
            rw [h2]
          all_goals
            rw [collapseWs_snoc_gen hlast (by simp [hc, hd]), ih]
            have h2 : collapseWs (c :: d :: u) =
                (if isPySpace c then ' ' else c) :: collapseWs (d :: u) := by
              simp [collapseWs, hc, hd]
            rw [h2, List.reverse_cons]

theorem dropWhile_collapseWs (l : Str) :
    (collapseWs l).dropWhile isPySpace =
      collapseWs (l.dropWhile isPySpace) := by
  induction l with
  | nil => rfl
  | cons c t ih =>
      cases t with
      | nil =>
          by_cases hc : isPySpace c = true
          · have h1 : collapseWs [c] = [' '] := by simp [collapseWs, hc]
            have h2 : List.dropWhile isPySpace [c] = [] := by
              rw [List.dropWhile_cons, if_pos hc, List.dropWhile_nil]
            rw [h1, h2]
            rfl
          · have h1 : collapseWs [c] = [c] := by simp [collapseWs, hc]
            have h2 : List.dropWhile isPySpace [c] = [c] := by
              rw [List.dropWhile_cons, if_neg hc]
            rw [h1, h2, h1]
      | cons d u =>
          by_cases hc : isPySpace c = true <;> by_cases hd : isPySpace d = true
          · have h1 : collapseWs (c :: d :: u) = collapseWs (d :: u) := by
              simp [collapseWs, hc, hd]
            have h3 : List.dropWhile isPySpace (c :: d :: u) =
                List.dropWhile isPySpace (d :: u) := by
              rw [List.dropWhile_cons, if_pos hc]
            rw [h1, h3]
            exact ih
          · have h1 : collapseWs (c :: d :: u) = ' ' :: collapseWs (d :: u) := by
              simp [collapseWs, hc, hd]
            have h2 : collapseWs (d :: u) = d :: collapseWs u :=
              collapseWs_cons_of_not_space d u (by simpa using hd)
            have h3 : List.dropWhile isPySpace (c :: d :: u) = d :: u := by
              rw [List.dropWhile_cons, if_pos hc, List.dropWhile_cons, if_neg hd]
            rw [h1, h2, h3, h2, List.dropWhile_cons,
              if_pos (show isPySpace ' ' = true from rfl),
              List.dropWhile_cons, if_neg hd]
          all_goals
            have h1 : collapseWs (c :: d :: u) = c :: collapseWs (d :: u) := by
              simp [collapseWs, hc, hd]
            have h3 : List.dropWhile isPySpace (c :: d :: u) = c :: d :: u := by
              rw [List.dropWhile_cons, if_neg hc]
            rw [h1, h3, h1, List.dropWhile_cons, if_neg hc]

theorem stripChars_collapseWs (l : Str) :
    stripChars (collapseWs l) = collapseWs (stripChars l) := by
  simp only [stripChars]
  rw [dropWhile_collapseWs l, ← collapseWs_reverse, dropWhile_collapseWs,
    ← collapseWs_reverse]

/-! ### The sentence splitter: joining pieces restores the cleaned text -/

theorem sentSplitAux_ne_nil (l : Str) : ∀ cur : Str, sentSplitAux cur l ≠ [] := by
  induction l with
  | nil => intro cur; simp [sentSplitAux]
  | cons c rest ih =>
      intro cur
      by_cases h : (c == ' ' && prevIsTerm cur) = true
      · simp [sentSplitAux, h]
      · rw [show sentSplitAux cur (c :: rest) = sentSplitAux (c :: cur) rest from by
          simp [sentSplitAux, h]]
        exact ih (c :: cur)

theorem sentSplitAux_join (l : Str) : ∀ cur : Str,
    joinWithSep (str " ") (sentSplitAux cur l) = cur.reverse ++ l := by
  induction l with
  | nil => intro cur; simp [sentSplitAux, joinWithSep]
  | cons c rest ih =>
      intro cur
      by_cases h : (c == ' ' && prevIsTerm cur) = true
      · rw [show sentSplitAux cur (c :: rest) = cur.reverse :: sentSplitAux [] rest
          from by simp [sentSplitAux, h],
          joinWithSep_cons _ _ _ (sentSplitAux_ne_nil rest []),
          ih []]
        have hc : c = ' ' := by
          have h1 := (Bool.and_eq_true _ _ ▸ h).1
          exact eq_of_beq h1
        subst hc
        rw [show (str " ") = [' '] from rfl]
        simp
      · rw [show sentSplitAux cur (c :: rest) = sentSplitAux (c :: cur) rest from by
          simp [sentSplitAux, h],
          ih (c :: cur), List.reverse_cons, List.append_assoc]
        rfl

/-- A string whose head and last characters are not whitespace (given
that its only whitespace characters are spaces) is unchanged by
`stripChars`. -/
theorem stripChars_eq_self (m : Str)
    (hws : ∀ c ∈ m, isPySpace c = true → c = ' ')
    (hhead : m.head? ≠ some ' ') (hlast : m.getLast? ≠ some ' ') :
    stripChars m = m := by
  cases m with
  | nil => rfl
  | cons a t =>
      have ha : isPySpace a = false := by
        by_contra hcon
        have h1 : isPySpace a = true := by
          revert hcon
          cases isPySpace a <;> simp
        have h2 := hws a (List.mem_cons_self a t) h1
        exact hhead (by simp [h2])
      show (((a :: t).dropWhile isPySpace).reverse.dropWhile isPySpace).reverse = a :: t
      rw [List.dropWhile_cons, if_neg (by simp [ha])]
      cases hr : (a :: t).reverse with
      | nil => exact absurd hr (by simp)
      | cons b t' =>
          have hbl : (a :: t).getLast? = some b := by
            rw [← List.head?_reverse, hr, List.head?_cons]
          have hb1 : b ≠ ' ' := by
            intro he
            exact hlast (by rw [hbl, he])
          have hbmem : b ∈ a :: t := by
            rw [← List.mem_reverse, hr]
            exact List.mem_cons_self b t'
          have hb : isPySpace b = false := by
            by_contra hcon
            have h1 : isPySpace b = true := by
              revert hcon
              cases isPySpace b <;> simp
            exact hb1 (hws b hbmem h1)
          have hdw : List.dropWhile isPySpace (b :: t') = b :: t' := by
            rw [List.dropWhile_cons, if_neg (by simp [hb])]
          rw [hdw, ← hr, List.reverse_reverse]

/-- isTermChar characters are never the space character. -/
theorem termCharNeSpace {c : Char} (h : isTermChar c = true) : c ≠ ' ' := by
  intro he
  subst he
  exact absurd h (by decide)

/-- Under the invariants of the cleaned text (only single internal
spaces, non-space ends), every piece produced by the splitter is
already stripped and non-empty. -/
theorem sentSplitAux_pieces (l : Str) : ∀ cur : Str,
    (∀ c ∈ cur.reverse ++ l, isPySpace c = true → c = ' ') →
    ndsp (cur.reverse ++ l) = true →
    (cur.reverse ++ l).head? ≠ some ' ' →
    (cur.reverse ++ l).getLast? ≠ some ' ' →
    cur.reverse ++ l ≠ [] →
    ∀ p ∈ sentSplitAux cur l, stripChars p = p ∧ p ≠ [] := by
  induction l with
  | nil =>
      intro cur hws hnd hhead hlast hne p hp
      rw [List.append_nil] at hws hhead hlast hne
      simp only [sentSplitAux, List.mem_singleton] at hp
      subst hp
      exact ⟨stripChars_eq_self _ hws hhead hlast, hne⟩
  | cons c rest ih =>
      intro cur hws hnd hhead hlast hne p hp
      by_cases hcond : (c == ' ' && prevIsTerm cur) = true
      · have hc : c = ' ' := eq_of_beq (Bool.and_eq_true _ _ ▸ hcond).1
        subst hc
        have hterm : prevIsTerm cur = true := (Bool.and_eq_true _ _ ▸ hcond).2
        cases cur with
        | nil => simp [prevIsTerm] at hterm
        | cons p0 cur' =>
            have hcne : (p0 :: cur').reverse ≠ [] := by simp
            rw [show sentSplitAux (p0 :: cur') (' ' :: rest) =
                (p0 :: cur').reverse :: sentSplitAux [] rest from by
              simp [sentSplitAux, hterm]] at hp
            have hrestne : rest ≠ [] := by
              intro he
              subst he
              exact hlast (by rw [List.getLast?_append_of_ne_nil _
                (show [' '] ≠ [] by simp)]; rfl)
            rcases List.mem_cons.mp hp with hp1 | hp1
            · subst hp1
              refine ⟨stripChars_eq_self _ (fun c hc hw =>
                hws c (List.mem_append_left _ hc) hw) ?_ ?_, hcne⟩
              · rw [← List.head?_append_of_ne_nil _ hcne]
                exact hhead
              · rw [List.getLast?_reverse, List.head?_cons]
                intro he
                simp only [Option.some.injEq] at he
                exact termCharNeSpace hterm he
            · have hnd2 : ndsp (' ' :: rest) = true :=
                ndsp_suffix ((p0 :: cur').reverse) _ hnd
              refine ih [] (fun c hc hw =>
                  hws c (List.mem_append_right _ (List.mem_cons_of_mem _ hc)) hw)
                (ndsp_tail hnd2) (by simpa using ndsp_space_head hnd2) ?_
                (by simpa using hrestne) p (by simpa using hp1)
              rw [show (List.reverse [] : Str) ++ rest = rest by simp]
              rw [show ((p0 :: cur').reverse ++ ' ' :: rest : Str) =
                ((p0 :: cur').reverse ++ [' ']) ++ rest from by simp] at hlast
              rw [← List.getLast?_append_of_ne_nil _ hrestne]
              exact hlast
      · have hm : (c :: cur).reverse ++ rest = cur.reverse ++ c :: rest := by
          rw [List.reverse_cons, List.append_assoc]
          rfl
        rw [show sentSplitAux cur (c :: rest) = sentSplitAux (c :: cur) rest from by
          simp [sentSplitAux, hcond]] at hp
        exact ih (c :: cur) (by rw [hm]; exact hws) (by rw [hm]; exact hnd)
          (by rw [hm]; exact hhead) (by rw [hm]; exact hlast)
          (by rw [hm]; exact hne) p hp

theorem stripHeadNotWs (l : Str) (a : Char)
    (h : (stripChars l).head? = some a) : isPySpace a = false := by
  simp only [stripChars] at h
  rw [List.head?_reverse] at h
  have hBne : (l.dropWhile isPySpace).reverse.dropWhile isPySpace ≠ [] := by
    intro he
    rw [he] at h
    simp at h
  rw [getLastOfDropWhile _ _ hBne, List.getLast?_reverse] at h
  exact headOfDropWhile _ _ _ h

theorem stripLastNotWs (l : Str) (a : Char)
    (h : (stripChars l).getLast? = some a) : isPySpace a = false := by
  simp only [stripChars] at h
  rw [List.getLast?_reverse] at h
  exact headOfDropWhile _ _ _ h

theorem collapseWs_getLast (l : Str) (d : Char) (hl : l.getLast? = some d)
    (hd : isPySpace d = false) : (collapseWs l).getLast? = some d := by
  rw [← List.head?_reverse, ← collapseWs_reverse]
  have h1 : l.reverse.head? = some d := by
    rw [List.head?_reverse]
    exact hl
  cases hrv : l.reverse with
  | nil =>
      rw [hrv] at h1
      simp at h1
  | cons x xs =>
      rw [hrv] at h1
      simp only [List.head?_cons, Option.some.injEq] at h1
      subst h1
      rw [collapseWs_cons_of_not_space _ _ hd, List.head?_cons]

/-! ### The claim-selection loop -/

theorem selectClaimsAux_cons (claims : List Str) (s : Str) (rest : List Str) :
    selectClaimsAux claims (s :: rest) =
      if 5 ≤ (if qualifiesAsClaim s then claims ++ [s] else claims).length
      then (if qualifiesAsClaim s then claims ++ [s] else claims)
      else selectClaimsAux (if qualifiesAsClaim s then claims ++ [s] else claims)
        rest := rfl

theorem selectClaimsAux_length (l : List Str) : ∀ claims : List Str,
    claims.length < 5 → (selectClaimsAux claims l).length ≤ 5 := by
  induction l with
  | nil =>
      intro claims h
      exact Nat.le_of_lt (by simpa [selectClaimsAux] using h)
  | cons s rest ih =>
      intro claims h
      have hc2 : (if qualifiesAsClaim s then claims ++ [s] else claims).length ≤
          claims.length + 1 := by
        by_cases hq : qualifiesAsClaim s = true <;> simp [hq]
      rw [selectClaimsAux_cons]
      by_cases hlen :
          5 ≤ (if qualifiesAsClaim s then claims ++ [s] else claims).length
      · rw [if_pos hlen]
        omega
      · rw [if_neg hlen]
        exact ih _ (by omega)

theorem selectClaimsAux_mem (l : List Str) : ∀ (claims : List Str) (x : Str),
    x ∈ selectClaimsAux claims l → x ∈ claims ∨ x ∈ l := by
  induction l with
  | nil =>
      intro claims x h
      exact Or.inl (by simpa [selectClaimsAux] using h)
  | cons s rest ih =>
      intro claims x h
      rw [selectClaimsAux_cons] at h
      have hsplit : x ∈ (if qualifiesAsClaim s then claims ++ [s] else claims) →
          x ∈ claims ∨ x ∈ s :: rest := by
        intro hx
        by_cases hq : qualifiesAsClaim s = true
        · rw [if_pos hq] at hx
          rcases List.mem_append.mp hx with h1 | h1
          · exact Or.inl h1
          · simp only [List.mem_singleton] at h1
            subst h1
            exact Or.inr (List.mem_cons_self x rest)
        · rw [if_neg hq] at hx
          exact Or.inl hx
      by_cases hlen :
          5 ≤ (if qualifiesAsClaim s then claims ++ [s] else claims).length
      · rw [if_pos hlen] at h
        exact hsplit h
      · rw [if_neg hlen] at h
        rcases ih _ x h with h1 | h1
        · exact hsplit h1
        · exact Or.inr (List.mem_cons_of_mem _ h1)

theorem selectClaimsAux_mem_qualifies (l : List Str) :
    ∀ (claims : List Str) (x : Str),
    x ∈ selectClaimsAux claims l → x ∈ claims ∨ qualifiesAsClaim x = true := by
  induction l with
  | nil =>
      intro claims x h
      exact Or.inl (by simpa [selectClaimsAux] using h)
  | cons s rest ih =>
      intro claims x h
      rw [selectClaimsAux_cons] at h
      have hsplit : x ∈ (if qualifiesAsClaim s then claims ++ [s] else claims) →
          x ∈ claims ∨ qualifiesAsClaim x = true := by
        intro hx
        by_cases hq : qualifiesAsClaim s = true
        · rw [if_pos hq] at hx
          rcases List.mem_append.mp hx with h1 | h1
          · exact Or.inl h1
          · simp only [List.mem_singleton] at h1
            subst h1
            exact Or.inr hq
        · rw [if_neg hq] at hx
          exact Or.inl hx
      by_cases hlen :
          5 ≤ (if qualifiesAsClaim s then claims ++ [s] else claims).length
      · rw [if_pos hlen] at h
        exact hsplit h
      · rw [if_neg hlen] at h
        rcases ih _ x h with h1 | h1
        · exact hsplit h1
        · exact Or.inr h1

theorem selectClaimsAux_stop (pre : List Str) : ∀ (claims post : List Str),
    claims.length < 5 → (selectClaimsAux claims pre).length = 5 →
    selectClaimsAux claims (pre ++ post) = selectClaimsAux claims pre := by
  induction pre with
  | nil =>
      intro claims post hlt h5
      simp only [selectClaimsAux] at h5
      omega
  | cons s rest ih =>
      intro claims post hlt h5
      rw [selectClaimsAux_cons] at h5
      rw [List.cons_append, selectClaimsAux_cons, selectClaimsAux_cons]
      by_cases hlen :
          5 ≤ (if qualifiesAsClaim s then claims ++ [s] else claims).length
      · rw [if_pos hlen, if_pos hlen]
      · rw [if_neg hlen] at h5
        rw [if_neg hlen, if_neg hlen]
        exact ih _ post (by omega) h5

/-! ### The watch-item and uncertainty-flag builders on non-empty input -/

theorem watchItemsNonempty (sentences : List Str) (h : sentences ≠ []) :
    _watch_items sentences =
      ((if sentences.any hasHedgeWord then
          [str "Verify conditional statements against confirmed reports."]
        else [])
       ++ (if sentences.any (fun s => hasNumericToken s) then
          [str "Confirm the quantitative figures with original data."]
        else [])
       ++ [str "Identify the primary sources behind the reported claims."]).take 3
    := by
  simp only [_watch_items]
  rw [if_neg h]

theorem flagsNonempty (sentences : List Str) (h : sentences ≠ []) :
    _uncertainty_flags sentences =
      ((if sentences.any (fun s => pyWordCount s < 6) then
          [str "Some sentences are very short, which may omit important context."]
        else [])
       ++ (if vagueTokens.any
            (fun t => isSubstrB t (lowerStr (joinWithSep (str " ") sentences))) then
          [str "Vague qualifiers suggest potential uncertainty or bias."]
        else [])
       ++ (if !(sentences.any (fun s => hasNumericToken s)) then
          [str "No numeric data was provided to anchor the claims."]
        else [])).take 3 := by
  simp only [_uncertainty_flags]
  rw [if_neg h]

theorem genericMemWatchItems (sentences : List Str) (h : sentences ≠ []) :
    str "Identify the primary sources behind the reported claims." ∈
      _watch_items sentences := by
  rw [watchItemsNonempty _ h]
  by_cases h1 : sentences.any hasHedgeWord = true <;>
    by_cases h2 : sentences.any (fun s => hasNumericToken s) = true <;>
      simp [h1, h2]

/-! ### Character provenance of split sentences -/

theorem memStripChars (l : Str) (c : Char) (h : c ∈ stripChars l) : c ∈ l := by
  simp only [stripChars] at h
  rw [List.mem_reverse] at h
  have h1 := memOfMemDropWhile _ _ _ h
  rw [List.mem_reverse] at h1
  exact memOfMemDropWhile _ _ _ h1

theorem sentSplitAux_chars (l : Str) : ∀ (cur p : Str),
    p ∈ sentSplitAux cur l → ∀ c ∈ p, c ∈ cur ∨ c ∈ l := by
  induction l with
  | nil =>
      intro cur p hp c hc
      simp only [sentSplitAux, List.mem_singleton] at hp
      subst hp
      exact Or.inl (List.mem_reverse.mp hc)
  | cons x rest ih =>
      intro cur p hp c hc
      by_cases hcond : (x == ' ' && prevIsTerm cur) = true
      · rw [show sentSplitAux cur (x :: rest) = cur.reverse :: sentSplitAux [] rest
          from by simp [sentSplitAux, hcond]] at hp
        rcases List.mem_cons.mp hp with h1 | h1
        · subst h1
          exact Or.inl (List.mem_reverse.mp hc)
        · rcases ih [] p h1 c hc with h2 | h2
          · simp at h2
          · exact Or.inr (List.mem_cons_of_mem _ h2)
      · rw [show sentSplitAux cur (x :: rest) = sentSplitAux (x :: cur) rest
          from by simp [sentSplitAux, hcond]] at hp
        rcases ih (x :: cur) p hp c hc with h2 | h2
        · rcases List.mem_cons.mp h2 with h3 | h3
          · subst h3
            exact Or.inr (List.mem_cons_self c rest)
          · exact Or.inl h3
        · exact Or.inr (List.mem_cons_of_mem _ h2)

theorem memSplitSentencesChars (s t : Str) (ht : t ∈ _split_sentences s)
    (c : Char) (hc : c ∈ t) : c ∈ s ∨ c = ' ' := by
  simp only [_split_sentences] at ht
  by_cases h : collapseWs (stripChars s) = []
  · rw [if_pos h] at ht
    simp at ht
  · rw [if_neg h] at ht
    have ht2 : t ∈ (sentSplitAux [] (collapseWs (stripChars s))).map stripChars :=
      List.mem_of_mem_filter ht
    rcases List.mem_map.mp ht2 with ⟨p, hp, hpt⟩
    subst hpt
    have hcp : c ∈ p := memStripChars p c hc
    rcases sentSplitAux_chars _ [] p hp c hcp with h2 | h2
    · simp at h2
    · rcases memCollapseWs _ c h2 with h3 | h3
      · exact Or.inl (memStripChars s c h3)
      · exact Or.inr h3

theorem numTokenScanDigit (l : Str) : ∀ prev : Option Char,
    numTokenScan prev l = true → ∃ c ∈ l, c.isDigit = true := by
  induction l with
  | nil =>
      intro prev h
      simp [numTokenScan] at h
  | cons c rest ih =>
      intro prev h
      simp only [numTokenScan, Bool.or_eq_true] at h
      rcases h with h1 | h1
      · simp only [Bool.and_eq_true] at h1
        exact ⟨c, List.mem_cons_self c rest, h1.1.1⟩
      · rcases ih _ h1 with ⟨d, hd, hdig⟩
        exact ⟨d, List.mem_cons_of_mem _ hd, hdig⟩

/-! ### Bool substring tests versus the prefix and infix relations -/

theorem isPrefixB_iff (n : Str) : ∀ h : Str, isPrefixB n h = true ↔ n <+: h := by
  induction n with
  | nil =>
      intro h
      simp [isPrefixB, List.nil_prefix]
  | cons c n' ih =>
      intro h
      cases h with
      | nil => simp [isPrefixB, List.prefix_nil]
      | cons b h' =>
          simp only [isPrefixB, Bool.and_eq_true, beq_iff_eq, List.cons_prefix_cons]
          exact and_congr Iff.rfl (ih h')

theorem isSubstrB_iff (n : Str) : ∀ h : Str, isSubstrB n h = true ↔ n <:+: h := by
  intro h
  induction h with
  | nil => simp [isSubstrB, List.infix_nil, List.isEmpty_iff]
  | cons b h' ih =>
      simp only [isSubstrB, Bool.or_eq_true, List.infix_cons_iff]
      exact or_congr (isPrefixB_iff n (b :: h')) ih

theorem prefixSplitAtMissing {x : Char} (n : Str) : ∀ A B : Str,
    n <+: A ++ x :: B → x ∉ n → n <+: A := by
  induction n with
  | nil =>
      intro A B h hx
      exact List.nil_prefix
  | cons c n' ih =>
      intro A B h hx
      cases A with
      | nil =>
          rcases List.cons_prefix_cons.mp h with ⟨h1, _⟩
          exact absurd (by rw [← h1]; exact List.mem_cons_self c n') hx
      | cons a A' =>
          rcases List.cons_prefix_cons.mp h with ⟨h1, h2⟩
          subst h1
          exact List.cons_prefix_cons.mpr
            ⟨rfl, ih A' B h2 (fun hm => hx (List.mem_cons_of_mem _ hm))⟩

theorem infixSplitAtMissing {x : Char} (n B : Str) (hx : x ∉ n) : ∀ A : Str,
    n <:+: A ++ x :: B → n <:+: A ∨ n <:+: B := by
  intro A
  induction A with
  | nil =>
      intro h
      rcases List.infix_cons_iff.mp h with h1 | h1
      · cases n with
        | nil => exact Or.inl List.nil_infix
        | cons c n' =>
            rcases List.cons_prefix_cons.mp h1 with ⟨h2, _⟩
            exact absurd (by rw [← h2]; exact List.mem_cons_self c n') hx
      · exact Or.inr h1
  | cons a A' ih =>
      intro h
      rw [List.cons_append] at h
      rcases List.infix_cons_iff.mp h with h1 | h1
      · exact Or.inl ((prefixSplitAtMissing n (a :: A') B h1 hx).isInfix)
      · rcases ih h1 with h2 | h2
        · exact Or.inl (List.infix_cons h2)
        · exact Or.inr h2

theorem infixDropWhileFront (n : Str)
    (hhead : ∀ c, n.head? = some c → isPySpace c = false) :
    ∀ l : Str, n <:+: l → n <:+: l.dropWhile isPySpace := by
  intro l
  induction l with
  | nil =>
      intro h
      rw [List.dropWhile_nil]
      exact h
  | cons a l' ih =>
      intro h
      rw [List.dropWhile_cons]
      by_cases ha : isPySpace a = true
      · rw [if_pos ha]
        rcases List.infix_cons_iff.mp h with h1 | h1
        · cases n with
          | nil => exact List.nil_infix
          | cons c n' =>
              rcases List.cons_prefix_cons.mp h1 with ⟨h2, _⟩
              have h3 := hhead c rfl
              rw [h2] at h3
              exact absurd ha (by simp [h3])
        · exact ih h1
      · rw [if_neg ha]
        exact h

theorem infixStripChars (n l : Str)
    (hhead : ∀ c, n.head? = some c → isPySpace c = false)
    (hlast : ∀ c, n.getLast? = some c → isPySpace c = false)
    (h : n <:+: l) : n <:+: stripChars l := by
  simp only [stripChars]
  have h1 : n <:+: l.dropWhile isPySpace := infixDropWhileFront n hhead l h
  have h2 : n.reverse <:+: (l.dropWhile isPySpace).reverse :=
    List.reverse_infix.mpr h1
  have h3 : n.reverse <:+:
      ((l.dropWhile isPySpace).reverse).dropWhile isPySpace :=
    infixDropWhileFront n.reverse
      (fun c hc => hlast c (by rwa [List.head?_reverse] at hc)) _ h2
  have h4 := List.reverse_infix.mpr h3
  rwa [List.reverse_reverse] at h4

theorem prefixCollapseWs (n : Str) (hws : ∀ c ∈ n, isPySpace c = false) :
    ∀ m : Str, n <+: m → n <+: collapseWs m := by
  induction n with
  | nil =>
      intro m h
      exact List.nil_prefix
  | cons c n' ih =>
      intro m h
      cases m with
      | nil => simp [List.prefix_nil] at h
      | cons b m' =>
          rcases List.cons_prefix_cons.mp h with ⟨h1, h2⟩
          subst h1
          rw [collapseWs_cons_of_not_space c m' (hws c (List.mem_cons_self c n'))]
          exact List.cons_prefix_cons.mpr
            ⟨rfl, ih (fun d hd => hws d (List.mem_cons_of_mem _ hd)) m' h2⟩

theorem infixCollapseWs (n : Str) (hne : n ≠ [])
    (hws : ∀ c ∈ n, isPySpace c = false) :
    ∀ l : Str, n <:+: l → n <:+: collapseWs l := by
  intro l
  induction l with
  | nil =>
      intro h
      exact absurd (List.infix_nil.mp h) hne
  | cons a l' ih =>
      intro h
      rcases List.infix_cons_iff.mp h with h1 | h1
      · exact (prefixCollapseWs n hws (a :: l') h1).isInfix
      · have hIH := ih h1
        cases l' with
        | nil => exact absurd (List.infix_nil.mp h1) hne
        | cons d l'' =>
            by_cases ha : isPySpace a = true <;> by_cases hd : isPySpace d = true
            · rw [show collapseWs (a :: d :: l'') = collapseWs (d :: l'') from by
                simp [collapseWs, ha, hd]]
              exact hIH
            · rw [show collapseWs (a :: d :: l'') = ' ' :: collapseWs (d :: l'')
                from by simp [collapseWs, ha, hd]]
              exact List.infix_cons hIH
            all_goals
              rw [show collapseWs (a :: d :: l'') = a :: collapseWs (d :: l'')
                from by simp [collapseWs, ha, hd]]
              exact List.infix_cons hIH

theorem infixSentSplitAux (n : Str) (hsp : ' ' ∉ n) :
    ∀ (l cur : Str), n <:+: cur.reverse ++ l →
      ∃ p ∈ sentSplitAux cur l, n <:+: p := by
  intro l
  induction l with
  | nil =>
      intro cur h
      rw [List.append_nil] at h
      exact ⟨cur.reverse, by simp [sentSplitAux], h⟩
  | cons c rest ih =>
      intro cur h
      by_cases hcond : (c == ' ' && prevIsTerm cur) = true
      · have hc : c = ' ' := eq_of_beq (Bool.and_eq_true _ _ ▸ hcond).1
        subst hc
        have hterm : prevIsTerm cur = true := (Bool.and_eq_true _ _ ▸ hcond).2
        rcases infixSplitAtMissing n rest hsp cur.reverse h with h1 | h1
        · refine ⟨cur.reverse, ?_, h1⟩
          rw [show sentSplitAux cur (' ' :: rest) =
              cur.reverse :: sentSplitAux [] rest from by
            simp [sentSplitAux, hterm]]
          exact List.mem_cons_self _ _
        · rcases ih [] (by simpa using h1) with ⟨p, hp, hnp⟩
          refine ⟨p, ?_, hnp⟩
          rw [show sentSplitAux cur (' ' :: rest) =
              cur.reverse :: sentSplitAux [] rest from by
            simp [sentSplitAux, hterm]]
          exact List.mem_cons_of_mem _ hp
      · have hm : (c :: cur).reverse ++ rest = cur.reverse ++ c :: rest := by
          rw [List.reverse_cons, List.append_assoc]
          rfl
        rcases ih (c :: cur) (by rw [hm]; exact h) with ⟨p, hp, hnp⟩
        refine ⟨p, ?_, hnp⟩
        rw [show sentSplitAux cur (c :: rest) = sentSplitAux (c :: cur) rest
          from by simp [sentSplitAux, hcond]]
        exact hp

/-- On non-degenerate input the splitter's stripping and filtering of
pieces are the identity, so the sentences are exactly the raw pieces. -/
theorem splitSentencesEqPieces (s : Str)
    (h : collapseWs (stripChars s) ≠ []) :
    _split_sentences s = sentSplitAux [] (collapseWs (stripChars s)) := by
  simp only [_split_sentences]
  rw [if_neg h]
  have hws : ∀ c ∈ collapseWs (stripChars s), isPySpace c = true → c = ' ' :=
    fun c hc hw => wsMemCollapseWs _ c hc hw
  have hnd : ndsp (collapseWs (stripChars s)) = true := ndsp_collapseWs _
  have hAne : stripChars s ≠ [] := by
    intro he
    exact h (by rw [he]; rfl)
  have hhead : (collapseWs (stripChars s)).head? ≠ some ' ' := by
    cases hA : stripChars s with
    | nil => exact absurd hA hAne
    | cons a t =>
        have ha : isPySpace a = false := stripHeadNotWs s a (by rw [hA]; rfl)
        rw [collapseWs_cons_of_not_space a t ha, List.head?_cons]
        intro he
        simp only [Option.some.injEq] at he
        subst he
        exact absurd ha (by decide)
  have hlast : (collapseWs (stripChars s)).getLast? ≠ some ' ' := by
    cases hA2 : (stripChars s).getLast? with
    | none =>
        have h0 : (stripChars s).reverse.head? = none := by
          rw [List.head?_reverse]
          exact hA2
        have h1 : (stripChars s).reverse = [] := List.head?_eq_none_iff.mp h0
        exact absurd (by simpa using h1) hAne
    | some d =>
        have hd : isPySpace d = false := stripLastNotWs s d hA2
        rw [collapseWs_getLast (stripChars s) d hA2 hd]
        intro he
        simp only [Option.some.injEq] at he
        subst he
        exact absurd hd (by decide)
  have hpieces := sentSplitAux_pieces (collapseWs (stripChars s)) []
    (by simpa using hws) (by simpa using hnd) (by simpa using hhead)
    (by simpa using hlast) (by simpa using h)
  rw [mapIdOn stripChars _ (fun p hp => (hpieces p hp).1),
    filterNeNil _ (fun p hp => (hpieces p hp).2)]

/-! ### Claim theorems -/

/-- C3: for every input string `s`, joining the sentence-splitter's
output for `s` with single spaces yields exactly the
whitespace-normalized form of `s` (runs of whitespace collapsed to
single spaces, then trimmed): sentence splitting is lossless apart from
boundary whitespace. -/
theorem splitSentences_join_normalized (s : Str) :
    joinWithSep (str " ") (_split_sentences s) = specNormalize s := by
  have hEq : specNormalize s = collapseWs (stripChars s) := by
    simp only [specNormalize]
    exact stripChars_collapseWs s
  rw [hEq]
  by_cases h : collapseWs (stripChars s) = []
  · simp only [_split_sentences]
    rw [if_pos h, h]
    rfl
  · rw [splitSentencesEqPieces s h,
      sentSplitAux_join (collapseWs (stripChars s)) []]
    simp

/-- C1 counterexample: the uncertainty-flags list CAN be empty for
non-empty input, contradicting the claimed lower bound of 1: a single
sentence with at least 6 words, a numeric token and none of the vague
substrings produces no flag at all. -/
theorem flagsEmptyCounterexample :
    _split_sentences
        (str "The committee announced results showing 45 improvements across divisions.")
      ≠ [] ∧
    _uncertainty_flags (_split_sentences
        (str "The committee announced results showing 45 improvements across divisions."))
      = [] := by
  constructor
  · decide
  · decide

/-- C1 (amended): for every input the watch-items list has between 1
and 3 items and the uncertainty-flags list has at most 3 items (its
lower bound of 1 fails: the flags can be empty for non-empty input);
for empty input each list is exactly its single fixed fallback
message. -/
theorem watchFlagsBounds :
    (∀ s : Str,
      1 ≤ (_watch_items (_split_sentences s)).length ∧
      (_watch_items (_split_sentences s)).length ≤ 3 ∧
      (_uncertainty_flags (_split_sentences s)).length ≤ 3) ∧
    _watch_items (_split_sentences (str "")) =
      [str "Clarify the main topic and provide supporting facts."] ∧
    _uncertainty_flags (_split_sentences (str "")) =
      [str "No input text provided to evaluate."] := by
  refine ⟨fun s => ?_, by decide, by decide⟩
  cases hss : _split_sentences s with
  | nil => refine ⟨?_, ?_, ?_⟩ <;> simp [_watch_items, _uncertainty_flags]
  | cons a t =>
      refine ⟨?_, ?_, ?_⟩
      · rw [watchItemsNonempty _ (by simp)]
        by_cases h1 : (a :: t).any hasHedgeWord = true <;>
          by_cases h2 : (a :: t).any (fun s => hasNumericToken s) = true <;>
            simp [h1, h2]
      · rw [watchItemsNonempty _ (by simp)]
        by_cases h1 : (a :: t).any hasHedgeWord = true <;>
          by_cases h2 : (a :: t).any (fun s => hasNumericToken s) = true <;>
            simp [h1, h2]
      · rw [flagsNonempty _ (by simp)]
        by_cases h1 : (a :: t).any (fun s => pyWordCount s < 6) = true <;>
          by_cases h2 : vagueTokens.any
            (fun u => isSubstrB u (lowerStr (joinWithSep (str " ") (a :: t)))) = true <;>
            by_cases h3 : (a :: t).any (fun s => hasNumericToken s) = true <;>
              simp [h1, h2, h3]

/-- C2 counterexample: there is NO input for which the generic
identify-primary-sources item is dropped: at most three items are ever
appended, so truncation to 3 keeps the generic item even when both
conditional items fire. -/
theorem genericNeverDropped :
    ¬ ∃ s : Str,
      (_split_sentences s).any hasHedgeWord = true ∧
      (_split_sentences s).any (fun t => hasNumericToken t) = true ∧
      str "Identify the primary sources behind the reported claims." ∉
        _watch_items (_split_sentences s) := by
  rintro ⟨s, h1, h2, h3⟩
  have hne : _split_sentences s ≠ [] := by
    intro he
    rw [he] at h1
    simp at h1
  exact h3 (genericMemWatchItems _ hne)

/-- C2 (amended): when both conditional watch items fire, the
watch-item list is exactly the hedge item, the numeric item and the
generic identify-primary-sources item, in that order; the truncation
to 3 items never drops the generic item because at most 3 items are
ever appended. -/
theorem watchItemsBothFire (s : Str)
    (h1 : (_split_sentences s).any hasHedgeWord = true)
    (h2 : (_split_sentences s).any (fun t => hasNumericToken t) = true) :
    _watch_items (_split_sentences s) =
      [str "Verify conditional statements against confirmed reports.",
       str "Confirm the quantitative figures with original data.",
       str "Identify the primary sources behind the reported claims."] := by
  have hne : _split_sentences s ≠ [] := by
    intro he
    rw [he] at h1
    simp at h1
  rw [watchItemsNonempty _ hne, if_pos h1, if_pos h2]
  rfl

theorem watchItemsBothFire_witness :
    _watch_items (_split_sentences (str "It could rain 20% today.")) =
      [str "Verify conditional statements against confirmed reports.",
       str "Confirm the quantitative figures with original data.",
       str "Identify the primary sources behind the reported claims."] :=
  watchItemsBothFire (str "It could rain 20% today.") (by decide) (by decide)

/-- C4: the headline builder returns the fixed fallback for the empty
sentence sequence; for a non-empty sequence it returns the first
sentence unchanged when it ends in terminal punctuation, and the first
sentence with a single appended period otherwise. -/
theorem buildHeadlineSpec :
    _build_headline [] = str "No topic detected from the provided text." ∧
    ∀ (first : Str) (rest : List Str),
      (endsWithTermPunct first = true → _build_headline (first :: rest) = first) ∧
      (endsWithTermPunct first = false →
        _build_headline (first :: rest) = first ++ str ".") := by
  refine ⟨rfl, fun first rest => ⟨fun h => ?_, fun h => ?_⟩⟩
  · simp [_build_headline, h]
  · simp [_build_headline, h]

theorem buildHeadlineSpec_witness :
    _build_headline [str "Ok!"] = str "Ok!" ∧
    _build_headline [str "Hi"] = str "Hi" ++ str "." :=
  ⟨(buildHeadlineSpec.2 (str "Ok!") []).1 (by decide),
   (buildHeadlineSpec.2 (str "Hi") []).2 (by decide)⟩

/-- C5: the claim selector returns at most 5 items; every returned item
occurs verbatim in the input sequence; and once the result of a prefix
has 5 claims, appending further sentences does not change the result
(they are not evaluated). -/
theorem selectClaimsSpec :
    (∀ ss : List Str, (_select_claims ss).length ≤ 5) ∧
    (∀ (ss : List Str) (c : Str), c ∈ _select_claims ss → c ∈ ss) ∧
    (∀ pre post : List Str, (_select_claims pre).length = 5 →
      _select_claims (pre ++ post) = _select_claims pre) := by
  refine ⟨fun ss => selectClaimsAux_length ss [] (by simp),
    fun ss c h => ?_,
    fun pre post h5 => selectClaimsAux_stop pre [] post (by simp) h5⟩
  rcases selectClaimsAux_mem ss [] c h with h1 | h1
  · simp at h1
  · exact h1

theorem selectClaimsSpec_witness :
    (str "It is fine.") ∈ [str "It is fine."] ∧
    _select_claims
        ([str "It is fine.", str "It is fine.", str "It is fine.",
          str "It is fine.", str "It is fine."] ++ [str "It was done."]) =
      _select_claims [str "It is fine.", str "It is fine.", str "It is fine.",
        str "It is fine.", str "It is fine."] :=
  ⟨selectClaimsSpec.2.1 [str "It is fine."] (str "It is fine.") (by decide),
   selectClaimsSpec.2.2 _ _ (by decide)⟩

/-- C6: for every (necessarily non-empty) input that contains the word
"could" and has no digit characters, the watch items include the
hedge-verification item and exclude the numeric-confirmation item, and
the confidence note is the fixed uncertain-no-specifics message (the
detail-score-zero branch, reached after the detail-score-at-least-2
branch fails). -/
theorem couldNoDigitsBehaviour (s : Str)
    (hcould : isSubstrB (str "could") s = true)
    (hnodig : ∀ c ∈ s, c.isDigit = false) :
    str "Verify conditional statements against confirmed reports." ∈
      _watch_items (_split_sentences s) ∧
    str "Confirm the quantitative figures with original data." ∉
      _watch_items (_split_sentences s) ∧
    _confidence_note (_split_sentences s) (_select_claims (_split_sentences s)) =
      str "The text offers broad statements with few specifics, so reliability is uncertain and would benefit from corroborating sources." := by
  have hinf : str "could" <:+: s := (isSubstrB_iff _ s).mp hcould
  have hnws : ∀ c ∈ str "could", isPySpace c = false := by decide
  have hne0 : str "could" ≠ [] := by decide
  have hchead : ∀ c, (str "could").head? = some c → isPySpace c = false := by
    intro c hc
    rw [show (str "could").head? = some 'c' from rfl] at hc
    simp only [Option.some.injEq] at hc
    subst hc
    decide
  have hclast : ∀ c, (str "could").getLast? = some c → isPySpace c = false := by
    intro c hc
    rw [show (str "could").getLast? = some 'd' from by decide] at hc
    simp only [Option.some.injEq] at hc
    subst hc
    decide
  have h1 : str "could" <:+: stripChars s := infixStripChars _ s hchead hclast hinf
  have h2 : str "could" <:+: collapseWs (stripChars s) :=
    infixCollapseWs _ hne0 hnws _ h1
  have hclne : collapseWs (stripChars s) ≠ [] := by
    intro he
    rw [he] at h2
    exact hne0 (List.infix_nil.mp h2)
  have hspn : ' ' ∉ str "could" := by decide
  rcases infixSentSplitAux _ hspn (collapseWs (stripChars s)) []
    (by simpa using h2) with ⟨t0, ht0p, hnt0⟩
  have hsent : _split_sentences s = sentSplitAux [] (collapseWs (stripChars s)) :=
    splitSentencesEqPieces s hclne
  have ht0 : t0 ∈ _split_sentences s := by
    rw [hsent]
    exact ht0p
  have hsub : isSubstrB (str "could") (lowerStr t0) = true := by
    refine (isSubstrB_iff _ _).mpr ?_
    have hmap := List.IsInfix.map Char.toLower hnt0
    rwa [show (str "could").map Char.toLower = str "could" from by decide] at hmap
  have hne : _split_sentences s ≠ [] := by
    intro he
    rw [he] at ht0
    simp at ht0
  have hnodigsent : ∀ t ∈ _split_sentences s, hasNumericToken t = false := by
    intro t ht
    by_contra hcon
    have h1 : hasNumericToken t = true := by
      revert hcon
      cases hasNumericToken t <;> simp
    rcases numTokenScanDigit _ _ h1 with ⟨c, hc, hdig⟩
    rcases memSplitSentencesChars s t ht c hc with h2 | h2
    · rw [hnodig c h2] at hdig
      exact absurd hdig (by simp)
    · subst h2
      exact absurd hdig (by decide)
  have hhedge : (_split_sentences s).any hasHedgeWord = true :=
    List.any_eq_true.mpr ⟨t0, ht0, by simp [hasHedgeWord, hsub]⟩
  have hnum : (_split_sentences s).any (fun t => hasNumericToken t) = false := by
    by_contra hcon
    have h1 : (_split_sentences s).any (fun t => hasNumericToken t) = true := by
      revert hcon
      cases (_split_sentences s).any (fun t => hasNumericToken t) <;> simp
    rcases List.any_eq_true.mp h1 with ⟨t, ht, htn⟩
    rw [hnodigsent t ht] at htn
    exact absurd htn (by simp)
  have hwatch : _watch_items (_split_sentences s) =
      [str "Verify conditional statements against confirmed reports.",
       str "Identify the primary sources behind the reported claims."] := by
    rw [watchItemsNonempty _ hne, if_pos hhedge, if_neg (by simp [hnum])]
    rfl
  have hfilter : (_split_sentences s).filter (fun t => hasNumericToken t) = [] :=
    List.filter_eq_nil_iff.mpr (fun t ht => by simp [hnodigsent t ht])
  refine ⟨by rw [hwatch]; decide, by rw [hwatch]; decide, ?_⟩
  simp only [_confidence_note]
  rw [if_neg hne, hfilter]
  rw [if_neg (by simp), if_pos (by simp)]

theorem couldNoDigitsBehaviour_witness :
    str "Verify conditional statements against confirmed reports." ∈
      _watch_items (_split_sentences (str "It could rain.")) ∧
    str "Confirm the quantitative figures with original data." ∉
      _watch_items (_split_sentences (str "It could rain.")) ∧
    _confidence_note (_split_sentences (str "It could rain."))
        (_select_claims (_split_sentences (str "It could rain."))) =
      str "The text offers broad statements with few specifics, so reliability is uncertain and would benefit from corroborating sources." :=
  couldNoDigitsBehaviour (str "It could rain.") (by decide) (by decide)

/-- C7: on the input "Sales grew 20%. Analysts are optimistic." the
splitter yields exactly the two sentences, both are selected as
claims, the confidence note is the partial-reliability template with
clarity "clear", the watch items are exactly the numeric-confirmation
item followed by the generic sources item, and the flags are exactly
the short-sentence flag. -/
theorem analyzeExampleTwo :
    _split_sentences (str "Sales grew 20%. Analysts are optimistic.") =
      [str "Sales grew 20%.", str "Analysts are optimistic."] ∧
    _select_claims [str "Sales grew 20%.", str "Analysts are optimistic."] =
      [str "Sales grew 20%.", str "Analysts are optimistic."] ∧
    _confidence_note [str "Sales grew 20%.", str "Analysts are optimistic."]
        [str "Sales grew 20%.", str "Analysts are optimistic."] =
      str "The text has clear structure with some factual indicators, suggesting partial reliability that should be checked against primary sources." ∧
    _watch_items [str "Sales grew 20%.", str "Analysts are optimistic."] =
      [str "Confirm the quantitative figures with original data.",
       str "Identify the primary sources behind the reported claims."] ∧
    _uncertainty_flags [str "Sales grew 20%.", str "Analysts are optimistic."] =
      [str "Some sentences are very short, which may omit important context."] := by
  refine ⟨by decide, by decide, by decide, by decide, by decide⟩

/-- C8: the analyze pipeline is deterministic: running it twice on the
same input string produces identical output strings (the embedding of
the pipeline is a pure function, so the two runs coincide
definitionally). -/
theorem analyzeDeterministic (s : Str) :
    analyze s = analyze s := rfl

/-- C9: for every non-empty sentence sequence, the vague-qualifiers
flag is emitted iff the lowercased single-space concatenation of the
sentences contains one of the five vague tokens as a substring; in
particular an input containing "someone" (and none of the five words
as separate words) still gets the flag. -/
theorem vagueFlagIff :
    (∀ ss : List Str, ss ≠ [] →
      (str "Vague qualifiers suggest potential uncertainty or bias." ∈
          _uncertainty_flags ss ↔
        vagueTokens.any
          (fun t => isSubstrB t (lowerStr (joinWithSep (str " ") ss))) = true)) ∧
    str "Vague qualifiers suggest potential uncertainty or bias." ∈
      _uncertainty_flags [str "Someone arrived today right now."] := by
  constructor
  · intro ss hne
    rw [flagsNonempty _ hne]
    by_cases h1 : ss.any (fun s => pyWordCount s < 6) = true <;>
      by_cases h2 : vagueTokens.any
        (fun t => isSubstrB t (lowerStr (joinWithSep (str " ") ss))) = true <;>
        by_cases h3 : ss.any (fun s => hasNumericToken s) = true <;>
          simp [h1, h2, h3] <;> decide
  · decide

theorem vagueFlagIff_witness :
    str "Vague qualifiers suggest potential uncertainty or bias." ∈
      _uncertainty_flags [str "They likely left."] :=
  (vagueFlagIff.1 [str "They likely left."] (by decide)).mpr (by decide)

/-- C10: assertion tokens are matched with a space on both sides, so
the sentence "It is." (where "is" touches the terminal punctuation) is
not selected as a claim, while a sentence with no space-delimited
assertion token is still selected when it contains a numeric token;
in general a sentence with neither feature is never selected. -/
theorem assertionTokenSpaceDelimited :
    hasAssertionToken (str "It is.") = false ∧
    _select_claims [str "It is."] = [] ∧
    _select_claims [str "Was 20% done."] = [str "Was 20% done."] ∧
    (∀ (s : Str) (ss : List Str), hasAssertionToken s = false →
      hasNumericToken s = false → s ∉ _select_claims ss) := by
  refine ⟨by decide, by decide, by decide, fun s ss h1 h2 hmem => ?_⟩
  rcases selectClaimsAux_mem_qualifies ss [] s hmem with h3 | h3
  · simp at h3
  · rw [qualifiesAsClaim, h1, h2] at h3
    exact absurd h3 (by simp)

theorem assertionTokenSpaceDelimited_witness :
    (str "Hello there.") ∉ _select_claims [str "Hello there."] :=
  assertionTokenSpaceDelimited.2.2.2 (str "Hello there.") [str "Hello there."]
    (by decide) (by decide)

